import Mathlib

/-!
Verification of the micro-benchmark suite: shallow embeddings of
hackbench (scheduler/IPC stress benchmark), pipe-latency (ping-pong
latency loop), pipebench (stdin/stdout throughput counter), heap-test
(heap pointer printer) and callbench (clock_gettime timing harness),
with theorems settling the specification's claims against them.
-/

namespace Hackbench

/-- Program counter of one hackbench worker as it goes through the
readiness barrier `ready()` (hackbench.c lines 98-109): before the
one-byte readiness write, after the write but still blocked in `poll`
on the wake fd, and past the barrier (running the payload). -/
inductive WPc where
  | beforeReady
  | readySent
  | running
  deriving DecidableEq, Repr

/-- Program counter of hackbench `main` after spawning the workers
(lines 327-337): reading one readiness byte per child, start timestamp
taken (`get_mono_time(&start)`), wake byte written to `wakefds[1]`. -/
inductive MPc where
  | reading
  | started
  | woke
  deriving DecidableEq, Repr

/-- Joint state of `main` and the `n` workers at the readiness barrier:
each worker's position in `ready()`, the number of readiness bytes main
has consumed from `readyfds[0]`, and main's position. -/
structure BarrierState (n : Nat) where
  wpc : Fin n → WPc
  readCount : Nat
  mpc : MPc

/-- Number of workers that have executed the readiness write in
`ready()` (line 103).  Each such worker wrote exactly one byte, so this
is also the number of readiness bytes ever put into the ready pipe. -/
def readyWritten {n : Nat} (s : BarrierState n) : Nat :=
  (Finset.univ.filter fun i => s.wpc i ≠ WPc.beforeReady).card

/-- Interleaving semantics of the readiness barrier, one constructor per
blocking-sensitive statement of the source:
* `readyWrite`: a worker executes the one-byte write of line 103;
* `pollWake`: a worker's `poll(&pfd, 1, -1)` (line 107) returns, which
  can only happen once main has written the wake byte (`mpc = woke`);
* `readReady`: main's `read(readyfds[0], &dummy, 1)` (line 329) returns,
  which requires an unconsumed readiness byte in the pipe;
* `takeStart`: main leaves the readiness loop (guard `i < total_children`
  exhausted) and takes the start timestamp (line 333);
* `wakeWrite`: main writes the single wake byte (line 336). -/
inductive BStep (n : Nat) : BarrierState n → BarrierState n → Prop where
  | readyWrite (s : BarrierState n) (i : Fin n) :
      s.wpc i = WPc.beforeReady →
      BStep n s { s with wpc := Function.update s.wpc i WPc.readySent }
  | pollWake (s : BarrierState n) (i : Fin n) :
      s.wpc i = WPc.readySent → s.mpc = MPc.woke →
      BStep n s { s with wpc := Function.update s.wpc i WPc.running }
  | readReady (s : BarrierState n) :
      s.mpc = MPc.reading → s.readCount < readyWritten s →
      BStep n s { s with readCount := s.readCount + 1 }
  | takeStart (s : BarrierState n) :
      s.mpc = MPc.reading → s.readCount = n →
      BStep n s { s with mpc := MPc.started }
  | wakeWrite (s : BarrierState n) :
      s.mpc = MPc.started →
      BStep n s { s with mpc := MPc.woke }

/-- Initial state: every worker before its readiness write, no byte read,
main in the readiness-reading loop. -/
def initBarrier (n : Nat) : BarrierState n :=
  ⟨fun _ => WPc.beforeReady, 0, MPc.reading⟩

/-- States reachable from the initial barrier state. -/
def BarrierReachable (n : Nat) (s : BarrierState n) : Prop :=
  Relation.ReflTransGen (BStep n) (initBarrier n) s

/-- Inductive invariant of the barrier: once main is past the readiness
loop it has consumed `n` bytes; bytes consumed never exceed bytes
written; a worker is past its poll only after the wake byte exists. -/
def BarrierInv {n : Nat} (s : BarrierState n) : Prop :=
  (s.mpc ≠ MPc.reading → s.readCount = n) ∧
  s.readCount ≤ readyWritten s ∧
  (∀ i, s.wpc i = WPc.running → s.mpc = MPc.woke)

lemma readyWritten_le {n : Nat} (s : BarrierState n) : readyWritten s ≤ n := by
  classical
  calc (Finset.univ.filter fun i => s.wpc i ≠ WPc.beforeReady).card
      ≤ (Finset.univ : Finset (Fin n)).card := Finset.card_le_card (Finset.filter_subset _ _)
    _ = n := by simp

lemma readyWritten_update_mono {n : Nat} (s : BarrierState n) (i : Fin n) (v : WPc)
    (hv : v ≠ WPc.beforeReady) :
    readyWritten s ≤
      readyWritten { s with wpc := Function.update s.wpc i v } := by
  classical
  apply Finset.card_le_card
  intro j hj
  simp only [readyWritten, Finset.mem_filter, Finset.mem_univ, true_and] at hj ⊢
  by_cases hij : j = i
  · subst hij
    simpa [Function.update] using hv
  · simpa [Function.update, hij] using hj

lemma barrierInv_init (n : Nat) : BarrierInv (initBarrier n) := by
  refine ⟨fun h => absurd rfl h, Nat.zero_le _, fun i h => ?_⟩
  simp [initBarrier] at h

lemma barrierInv_step {n : Nat} {s t : BarrierState n}
    (hs : BarrierInv s) (hst : BStep n s t) : BarrierInv t := by
  obtain ⟨h1, h2, h3⟩ := hs
  cases hst with
  | readyWrite i hi =>
      refine ⟨h1, le_trans h2 (readyWritten_update_mono s i WPc.readySent (by simp)), ?_⟩
      intro j hj
      by_cases hij : j = i
      · subst hij; simp [Function.update] at hj
      · exact h3 j (by simpa [Function.update, hij] using hj)
  | pollWake i hi hm =>
      refine ⟨h1, le_trans h2 (readyWritten_update_mono s i WPc.running (by simp)), ?_⟩
      intro j _
      exact hm
  | readReady hm hcnt =>
      exact ⟨fun h => absurd hm (by simpa using h), hcnt, fun i hi => h3 i hi⟩
  | takeStart hm hcnt =>
      refine ⟨fun _ => hcnt, h2, fun i hi => ?_⟩
      have := h3 i hi
      rw [hm] at this
      exact absurd this (by simp)
  | wakeWrite hm =>
      refine ⟨fun _ => h1 (by rw [hm]; simp), h2, fun i _ => rfl⟩

lemma barrierInv_reachable {n : Nat} {s : BarrierState n}
    (h : BarrierReachable n s) : BarrierInv s := by
  induction h with
  | refl => exact barrierInv_init n
  | tail _ hstep ih => exact barrierInv_step ih hstep

lemma all_ready_of_readCount {n : Nat} {s : BarrierState n}
    (hcnt : s.readCount = n) (hle : s.readCount ≤ readyWritten s) :
    ∀ i, s.wpc i ≠ WPc.beforeReady := by
  classical
  intro i
  have hcard : (Finset.univ.filter fun i => s.wpc i ≠ WPc.beforeReady).card = n :=
    le_antisymm (readyWritten_le s) (by show n ≤ readyWritten s; omega)
  have huniv : (Finset.univ.filter fun i => s.wpc i ≠ WPc.beforeReady) =
      (Finset.univ : Finset (Fin n)) :=
    Finset.eq_univ_of_card _ (by simpa using hcard)
  have : i ∈ Finset.univ.filter fun i => s.wpc i ≠ WPc.beforeReady := by
    rw [huniv]; exact Finset.mem_univ i
  exact (Finset.mem_filter.mp this).2

/-- C1: in every reachable state of the hackbench readiness barrier, if
main has taken the start timestamp or written the wake byte (left the
`reading` phase) then it has read one readiness byte per worker and every
worker has reported ready; and no worker is past its `poll` on the wake
fd unless the wake byte has been written. -/
theorem ready_barrier_order (n : Nat) (s : BarrierState n)
    (h : BarrierReachable n s) :
    (s.mpc ≠ MPc.reading →
      s.readCount = n ∧ ∀ i, s.wpc i ≠ WPc.beforeReady) ∧
    (∀ i, s.wpc i = WPc.running → s.mpc = MPc.woke) := by
  obtain ⟨h1, h2, h3⟩ := barrierInv_reachable h
  refine ⟨fun hm => ?_, h3⟩
  have hcnt := h1 hm
  exact ⟨hcnt, all_ready_of_readCount hcnt h2⟩

/-- Intermediate states of a complete one-worker run of the barrier. -/
def bState1 : BarrierState 1 :=
  { initBarrier 1 with wpc := Function.update (initBarrier 1).wpc 0 WPc.readySent }

def bState2 : BarrierState 1 := { bState1 with readCount := bState1.readCount + 1 }

def bState3 : BarrierState 1 := { bState2 with mpc := MPc.started }

def bState4 : BarrierState 1 := { bState3 with mpc := MPc.woke }

def bState5 : BarrierState 1 :=
  { bState4 with wpc := Function.update bState4.wpc 0 WPc.running }

lemma bReach5 : BarrierReachable 1 bState5 := by
  refine Relation.ReflTransGen.head (BStep.readyWrite (initBarrier 1) 0 rfl) ?_
  refine Relation.ReflTransGen.head (BStep.readReady bState1 rfl (by decide)) ?_
  refine Relation.ReflTransGen.head (BStep.takeStart bState2 rfl (by decide)) ?_
  refine Relation.ReflTransGen.head (BStep.wakeWrite bState3 rfl) ?_
  exact Relation.ReflTransGen.single (BStep.pollWake bState4 0 (by decide) rfl)

/-- Witness for C1: the barrier theorem applied to the final state of a
complete one-worker run reached by explicit steps. -/
theorem ready_barrier_order_witness :
    (bState5.mpc ≠ MPc.reading →
      bState5.readCount = 1 ∧ ∀ i, bState5.wpc i ≠ WPc.beforeReady) ∧
    (∀ i, bState5.wpc i = WPc.running → bState5.mpc = MPc.woke) :=
  ready_barrier_order 1 bState5 bReach5

/-- `struct receiver_context` (lines 48-53) as set up in `group()`:
the number of messages to read and the identity of the fd pair whose
read end (`in_fds[0]`) this receiver owns. -/
structure ReceiverCtx where
  num_packets : Nat
  inPair : Nat
  deriving DecidableEq, Repr

/-- `struct sender_context` (lines 41-46): the write ends `out_fds` of
all the group's pairs, identified by pair. -/
structure SenderCtx where
  out_fds : List Nat
  deriving DecidableEq, Repr

/-- One created worker, tagged by the function it runs. -/
inductive Worker where
  | recv (ctx : ReceiverCtx)
  | send (ctx : SenderCtx)
  deriving DecidableEq, Repr

/-- The workers created by one call of `group()` (lines 199-245), in
child-table order: for each `i < num_fds` a receiver whose context gets
`num_packets = num_fds * loops` (line 213) and the pair created by
`fdpair` at iteration `i` (pairs are numbered `pairBase + i`); then
`num_fds` senders, each created with the shared `snd_ctx` holding the
write ends of all `num_fds` pairs (lines 223, 231-235). -/
def groupWorkers (numFds loops pairBase : Nat) : List Worker :=
  ((List.range numFds).map fun i =>
    Worker.recv ⟨numFds * loops, pairBase + i⟩) ++
  ((List.range numFds).map fun _ =>
    Worker.send ⟨(List.range numFds).map fun i => pairBase + i⟩)

/-- `group()`'s return value, `num_fds * 2` (line 244). -/
def groupReturn (numFds : Nat) : Nat := numFds * 2

/-- main's spawning loop (lines 315-319): call `group` once per group,
appending the created workers to the child table and accumulating
`total_children`; the pairs of group `g` are numbered from
`g * num_fds`. -/
def spawnGroups (numFds loops : Nat) : Nat → List Worker × Nat
  | 0 => ([], 0)
  | g + 1 =>
    ((spawnGroups numFds loops g).1 ++ groupWorkers numFds loops (g * numFds),
     (spawnGroups numFds loops g).2 + groupReturn numFds)

/-- The pair a receiver reads from, if the worker is a receiver. -/
def recvPair : Worker → Option Nat
  | Worker.recv ctx => some ctx.inPair
  | Worker.send _ => none

/-- Whether a worker is a sender. -/
def isSend : Worker → Bool
  | Worker.recv _ => false
  | Worker.send _ => true

lemma groupWorkers_length (F L b : Nat) :
    (groupWorkers F L b).length = 2 * F := by
  simp [groupWorkers]
  ring

lemma spawnGroups_total (F L G : Nat) :
    (spawnGroups F L G).2 = G * (2 * F) := by
  induction G with
  | zero => simp [spawnGroups]
  | succ g ih => simp [spawnGroups, ih, groupReturn]; ring

lemma spawnGroups_length (F L G : Nat) :
    (spawnGroups F L G).1.length = G * (2 * F) := by
  induction G with
  | zero => simp [spawnGroups]
  | succ g ih => simp [spawnGroups, ih, groupWorkers_length]; ring

lemma groupWorkers_recvPairs (F L b : Nat) :
    (groupWorkers F L b).filterMap recvPair = (List.range F).map fun i => b + i := by
  simp only [groupWorkers, List.filterMap_append, List.filterMap_map]
  have h1 : List.filterMap
      (recvPair ∘ fun i => Worker.recv ⟨F * L, b + i⟩) (List.range F) =
      (List.range F).map fun i => b + i := by
    induction List.range F with
    | nil => rfl
    | cons x xs ih => simp [List.filterMap_cons, Function.comp, recvPair, ih]
  have h2 : List.filterMap
      (recvPair ∘ fun _ => Worker.send ⟨(List.range F).map fun i => b + i⟩)
      (List.range F) = [] := by
    induction List.range F with
    | nil => rfl
    | cons x xs ih => simp [List.filterMap_cons, Function.comp, recvPair, ih]
  rw [h1, h2, List.append_nil]

/-- C2: hackbench setup creates exactly `G * 2 * F` workers: `group()`
returns `num_fds * 2`, `total_children` accumulates to `G * (2*F)` and
the child table has that many entries; within one group there are
exactly `F` receivers whose fd pairs are pairwise distinct, and exactly
`F` senders, each holding the write ends of all `F` of the group's
pairs. -/
theorem setup_worker_counts (G F L : Nat) :
    (spawnGroups F L G).2 = G * (2 * F) ∧
    (spawnGroups F L G).1.length = G * (2 * F) ∧
    (∀ b, (groupWorkers F L b).length = groupReturn F) ∧
    (∀ b, ((groupWorkers F L b).filterMap recvPair).length = F ∧
      ((groupWorkers F L b).filterMap recvPair).Nodup) ∧
    (∀ b, ((groupWorkers F L b).filter isSend).length = F) ∧
    (∀ b ctx, Worker.send ctx ∈ groupWorkers F L b →
      ctx.out_fds = (List.range F).map fun i => b + i) := by
  refine ⟨spawnGroups_total F L G, spawnGroups_length F L G, ?_, ?_, ?_, ?_⟩
  · intro b; rw [groupWorkers_length]; simp [groupReturn]; ring
  · intro b
    rw [groupWorkers_recvPairs]
    constructor
    · simp
    · exact List.Nodup.map (fun x y h => by omega) (List.nodup_range F)
  · intro b
    simp [groupWorkers, List.filter_append, List.filter_map, isSend, Function.comp]
  · intro b ctx hmem
    rcases List.mem_append.mp hmem with h | h
    · obtain ⟨i, _, heq⟩ := List.mem_map.mp h
      exact absurd heq (by simp)
    · obtain ⟨i, _, heq⟩ := List.mem_map.mp h
      cases heq
      rfl

/-- Witness for C2 at `G = 2`, `F = 3`, `L = 4`. -/
theorem setup_worker_counts_witness :
    (spawnGroups 3 4 2).2 = 2 * (2 * 3) ∧
    ((groupWorkers 3 4 0).filterMap recvPair).Nodup ∧
    ((groupWorkers 3 4 0).filter isSend).length = 3 := by
  have h := setup_worker_counts 2 3 4
  exact ⟨h.1, (h.2.2.2.1 0).2, h.2.2.2.2.1 0⟩

/-- The inner transfer loop shared by `sender` (lines 127-132) and
`receiver` (lines 149-154): starting from `done` bytes already
transferred, while `done < datasize` issue another `write`/`read`; each
call's byte count is the next element of `rets` (the kernel's successive
return values; the source panics on a negative return, so only
non-negative returns are modelled) and is added to `done`.  The result
is the number of calls issued, or `none` when `rets` is exhausted before
the message completes (the call would block or, for a 0 return, loop). -/
def transferCalls (datasize : Nat) : Nat → List Nat → Option Nat
  | done, [] => if done < datasize then none else some 0
  | done, r :: rs =>
    if done < datasize then
      (transferCalls datasize (done + r) rs).map (· + 1)
    else some 0

lemma transferCalls_eq_zero (d done : Nat) (rs : List Nat) :
    transferCalls d done rs = some 0 ↔ d ≤ done := by
  cases rs with
  | nil =>
    by_cases h : done < d
    · simp [transferCalls, h]
    · simp [transferCalls, h]
      omega
  | cons r rs =>
    by_cases h : done < d
    · simp only [transferCalls, if_pos h]
      constructor
      · intro hmap
        cases hx : transferCalls d (done + r) rs <;> simp [hx] at hmap
      · intro hd; omega
    · simp [transferCalls, h]; omega

/-- C3 counterexample: with a 2-byte message whose first `write` only
transfers 1 byte, the sender's transfer loop issues a second call — the
data path does re-issue the call to complete a partial transfer, so the
transfer is not always a single call. -/
theorem transfer_single_call_counterexample :
    transferCalls 2 0 [1, 1] = some 2 ∧ transferCalls 2 0 [1, 1] ≠ some 1 := by
  decide

/-- C3 amended: each `datasize`-byte message is moved by a loop that
re-issues `write`/`read` until `datasize` bytes are done; at least one
call is always issued, and the message completes in a single call
exactly when the first call transfers the whole `datasize` bytes. -/
theorem transfer_retries (datasize r : Nat) (rs : List Nat) (h : 0 < datasize) :
    (transferCalls datasize 0 (r :: rs) = some 1 ↔ datasize ≤ r) ∧
    (∀ k, transferCalls datasize 0 (r :: rs) = some k → 1 ≤ k) := by
  constructor
  · simp only [transferCalls, if_pos h, Nat.zero_add]
    constructor
    · intro hmap
      have : transferCalls datasize r rs = some 0 := by
        cases hx : transferCalls datasize r rs with
        | none => simp [hx] at hmap
        | some k =>
          rw [hx] at hmap
          have hk1 : k + 1 = 1 := Option.some.inj hmap
          have hk : k = 0 := by omega
          rw [hk]
      exact (transferCalls_eq_zero datasize r rs).mp this
    · intro hd
      rw [(transferCalls_eq_zero datasize r rs).mpr hd]
      rfl
  · intro k hk
    simp only [transferCalls, if_pos h, Nat.zero_add] at hk
    cases hx : transferCalls datasize r rs <;> simp [hx] at hk
    omega

/-- Witness for C3's amended theorem at `datasize = 2`, first return 2. -/
theorem transfer_retries_witness :
    ((transferCalls 2 0 [2] = some 1 ↔ 2 ≤ 2) ∧
      (∀ k, transferCalls 2 0 [2] = some k → 1 ≤ k)) :=
  transfer_retries 2 2 [] (by decide)

/-- One teardown action of hackbench's cleanup. -/
inductive CleanupAct where
  | sigterm (child : Nat)
  | waitChild (child : Nat)
  | freeTab
  deriving DecidableEq, Repr

/-- `reap_workers` (lines 177-197) as the list of teardown actions it
performs: with `dokill` it first sends SIGTERM to every recorded child
(`kill(child[i].pid, SIGTERM)` for each `i < totchld`, line 184), then
waits for (process mode, `wait()`) or joins (thread mode,
`pthread_join`) each of the `totchld` children.  The early `break` on
`ECHILD` (line 190) fires only once no child remains, so one wait is
recorded per child. -/
def reap_workers (totchld : Nat) (dokill : Bool) : List CleanupAct :=
  (if dokill then (List.range totchld).map CleanupAct.sigterm else []) ++
  (List.range totchld).map CleanupAct.waitChild

/-- The signal path of `main` (lines 338-342): when `sigcatcher` longjmps
out of setup or the run, main calls `reap_workers(child_tab,
total_children, 1)`, frees the child table and returns 1. -/
def mainSignalPath (total_children : Nat) : List CleanupAct × Nat :=
  (reap_workers total_children true ++ [CleanupAct.freeTab], 1)

/-- C4: on a caught SIGINT/SIGTERM, hackbench sends SIGTERM to every
recorded child, then waits for (or joins) every child, the kills all
preceding the waits, frees the child table last, and exits with
status 1. -/
theorem signal_cleanup (n : Nat) :
    (mainSignalPath n).1 =
      ((List.range n).map CleanupAct.sigterm ++
        (List.range n).map CleanupAct.waitChild) ++ [CleanupAct.freeTab] ∧
    (∀ i, i < n → CleanupAct.sigterm i ∈ (mainSignalPath n).1) ∧
    (∀ i, i < n → CleanupAct.waitChild i ∈ (mainSignalPath n).1) ∧
    (mainSignalPath n).1.getLast? = some CleanupAct.freeTab ∧
    (mainSignalPath n).2 = 1 := by
  have h0 : (mainSignalPath n).1 =
      ((List.range n).map CleanupAct.sigterm ++
        (List.range n).map CleanupAct.waitChild) ++ [CleanupAct.freeTab] := rfl
  refine ⟨h0, ?_, ?_, ?_, rfl⟩
  · intro i hi
    rw [h0]
    exact List.mem_append.mpr (Or.inl (List.mem_append.mpr (Or.inl
      (List.mem_map.mpr ⟨i, List.mem_range.mpr hi, rfl⟩))))
  · intro i hi
    rw [h0]
    exact List.mem_append.mpr (Or.inl (List.mem_append.mpr (Or.inr
      (List.mem_map.mpr ⟨i, List.mem_range.mpr hi, rfl⟩))))
  · rw [h0, List.getLast?_concat]

/-- Witness for C4 at `total_children = 2`. -/
theorem signal_cleanup_witness :
    CleanupAct.sigterm 1 ∈ (mainSignalPath 2).1 ∧
    CleanupAct.waitChild 0 ∈ (mainSignalPath 2).1 ∧
    (mainSignalPath 2).2 = 1 :=
  ⟨(signal_cleanup 2).2.1 1 (by decide), (signal_cleanup 2).2.2.1 0 (by decide),
    (signal_cleanup 2).2.2.2.2⟩

/-- Events on the coordination channels and the payload channels. -/
inductive Ev where
  | readyWrite (nbytes : Nat) (c : Char)
  | wakePoll
  | readyRead (nbytes : Nat)
  | wakeWrite (nbytes : Nat)
  | sendMsg (fd : Nat)
  | recvMsg (fd : Nat)
  deriving DecidableEq, Repr

/-- `ready()` (lines 98-109): write exactly one byte `'*'` to
`ready_out`, then poll the wake fd. -/
def readyEvents : List Ev := [Ev.readyWrite 1 '*', Ev.wakePoll]

/-- The event trace of `sender` (lines 117-136): the barrier, then for
each of `loops` iterations one `datasize`-byte message transfer to each
of the `num_fds` write ends (the inner while loop is `transferCalls`). -/
def senderEvents (numFds loops : Nat) : List Ev :=
  readyEvents ++ ((List.range loops).flatMap fun _ =>
    (List.range numFds).map fun j => Ev.sendMsg j)

/-- The event trace of `receiver` (lines 138-158): the barrier, then
`num_packets` message reads from `in_fds[0]`. -/
def receiverEvents (num_packets inFd : Nat) : List Ev :=
  readyEvents ++ (List.range num_packets).map fun _ => Ev.recvMsg inFd

/-- main's side of the barrier (lines 327-337): one 1-byte read per
child from `readyfds[0]`, then one 1-byte write to `wakefds[1]`. -/
def mainWakeEvents (total_children : Nat) : List Ev :=
  ((List.range total_children).map fun _ => Ev.readyRead 1) ++ [Ev.wakeWrite 1]

/-- Is the event a write to the readiness channel? -/
def isReadyWriteEv : Ev → Bool
  | Ev.readyWrite _ _ => true
  | _ => false

/-- Is the event a write to the wake channel? -/
def isWakeWriteEv : Ev → Bool
  | Ev.wakeWrite _ => true
  | _ => false

/-- Is the event a read of the readiness channel? -/
def isReadyReadEv : Ev → Bool
  | Ev.readyRead _ => true
  | _ => false

lemma filter_map_const_nil {α : Type} (p : Ev → Bool) (f : α → Ev)
    (hf : ∀ a, p (f a) = false) (l : List α) :
    (l.map f).filter p = [] := by
  induction l with
  | nil => rfl
  | cons x xs ih => simp [List.filter_cons, hf, ih]

lemma filter_flatMap_nil {α : Type} (p : Ev → Bool) (g : α → List Ev)
    (hg : ∀ a, (g a).filter p = []) (l : List α) :
    (l.flatMap g).filter p = [] := by
  induction l with
  | nil => rfl
  | cons x xs ih =>
    rw [List.flatMap_cons, List.filter_append, hg, ih]
    rfl

/-- C5: the only control-channel traffic is one readiness byte per
worker and one wake byte: each worker's trace contains exactly one
readiness write, of exactly 1 byte `'*'`, and no wake write; main's
trace contains exactly `total_children` readiness reads of 1 byte each
and exactly one wake write of 1 byte. -/
theorem control_channel_bytes (F L P inFd n : Nat) :
    (senderEvents F L).filter isReadyWriteEv = [Ev.readyWrite 1 '*'] ∧
    (receiverEvents P inFd).filter isReadyWriteEv = [Ev.readyWrite 1 '*'] ∧
    (senderEvents F L).filter isWakeWriteEv = [] ∧
    (receiverEvents P inFd).filter isWakeWriteEv = [] ∧
    (mainWakeEvents n).filter isWakeWriteEv = [Ev.wakeWrite 1] ∧
    (mainWakeEvents n).filter isReadyReadEv =
      (List.range n).map fun _ => Ev.readyRead 1 := by
  have hsend : ((List.range L).flatMap fun _ =>
      (List.range F).map fun j => Ev.sendMsg j).filter isReadyWriteEv = [] :=
    filter_flatMap_nil isReadyWriteEv _
      (fun _ => filter_map_const_nil isReadyWriteEv (fun j => Ev.sendMsg j)
        (fun _ => rfl) (List.range F)) (List.range L)
  have hsendw : ((List.range L).flatMap fun _ =>
      (List.range F).map fun j => Ev.sendMsg j).filter isWakeWriteEv = [] :=
    filter_flatMap_nil isWakeWriteEv _
      (fun _ => filter_map_const_nil isWakeWriteEv (fun j => Ev.sendMsg j)
        (fun _ => rfl) (List.range F)) (List.range L)
  refine ⟨?_, ?_, ?_, ?_, ?_, ?_⟩
  · rw [senderEvents, List.filter_append, hsend]
    rfl
  · rw [receiverEvents, List.filter_append,
      filter_map_const_nil isReadyWriteEv (fun _ => Ev.recvMsg inFd) (fun _ => rfl)]
    rfl
  · rw [senderEvents, List.filter_append, hsendw]
    rfl
  · rw [receiverEvents, List.filter_append,
      filter_map_const_nil isWakeWriteEv (fun _ => Ev.recvMsg inFd) (fun _ => rfl)]
    rfl
  · rw [mainWakeEvents, List.filter_append,
      filter_map_const_nil isWakeWriteEv (fun _ => Ev.readyRead 1) (fun _ => rfl)]
    rfl
  · rw [mainWakeEvents, List.filter_append]
    have : ((List.range n).map fun _ => Ev.readyRead 1).filter isReadyReadEv =
        (List.range n).map fun _ => Ev.readyRead 1 :=
      List.filter_eq_self.mpr (by
        intro a ha
        obtain ⟨_, _, h⟩ := List.mem_map.mp ha
        rw [← h]; rfl)
    rw [this]
    simp [isReadyReadEv]

/-- C6: the per-message target stream of one sender (lines 125-134):
for each of `loops` iterations, one `datasize`-byte message to each of
`out_fds[0..num_fds)`. -/
def senderTargets (loops numFds : Nat) : List Nat :=
  (List.range loops).flatMap fun _ => List.range numFds

/-- `ctx->num_packets` as set in `group()` line 213. -/
def receiver_num_packets (numFds loops : Nat) : Nat := numFds * loops

lemma count_range (F j : Nat) : (List.range F).count j = if j < F then 1 else 0 := by
  induction F with
  | zero => simp
  | succ f ih =>
    rw [List.range_succ, List.count_append, ih]
    by_cases h : j = f
    · subst h
      rw [if_neg (lt_irrefl _), if_pos (Nat.lt_succ_self _)]
      simp
    · have hs : ([f].count j) = 0 := List.count_eq_zero.mpr (by simp [h])
      rw [hs]
      by_cases h2 : j < f
      · rw [if_pos h2, if_pos (by omega)]
      · rw [if_neg h2, if_neg (by omega)]

lemma senderTargets_count (L F j : Nat) (h : j < F) :
    (senderTargets L F).count j = L := by
  induction L with
  | zero => simp [senderTargets]
  | succ l ih =>
    have hstep : senderTargets (l + 1) F = senderTargets l F ++ List.range F := by
      simp only [senderTargets]
      rw [List.range_succ, List.flatMap_append]
      simp
    rw [hstep, List.count_append, ih, count_range, if_pos h]

/-- C6: in every hackbench group, the number of messages each receiver
is configured to read (`num_packets = num_fds * loops`) equals the
number of messages the group's `num_fds` senders write into that
receiver's pipe (each sender sends `loops` messages to each write end),
so per pipe the bytes written equal the bytes the receiver will
consume. -/
theorem group_message_conservation (F L D j : Nat) (hj : j < F) :
    F * (senderTargets L F).count j = receiver_num_packets F L ∧
    F * ((senderTargets L F).count j * D) = receiver_num_packets F L * D := by
  rw [senderTargets_count L F j hj, receiver_num_packets]
  exact ⟨rfl, by ring⟩

/-- Witness for C6 at `F = 3`, `L = 2`, `D = 100`, pipe `j = 1`. -/
theorem group_message_conservation_witness :
    3 * (senderTargets 2 3).count 1 = receiver_num_packets 3 2 ∧
    3 * ((senderTargets 2 3).count 1 * 100) = receiver_num_packets 3 2 * 100 :=
  group_message_conservation 3 2 100 1 (by decide)

end Hackbench

namespace PipeLatency

/-- One pipe operation of pipe-latency, with the pipe it touches and the
number of bytes moved. -/
inductive PEv where
  | readMsg (pipeId nbytes : Nat)
  | writeMsg (pipeId nbytes : Nat)
  deriving DecidableEq, Repr

/-- `struct thread_data` (pipe-latency.c lines 47-52), with the fds the
worker uses replaced by the identity of the pipe they belong to. -/
structure ThreadData where
  nr : Nat
  pipe_read : Nat
  pipe_write : Nat
  deriving DecidableEq, Repr

/-- `sizeof(int)`, the size of every ping-pong message (lines 131-140). -/
def intSize : Nat := 4

/-- The event trace of `worker_thread` (lines 123-145): `loops`
iterations; thread 0 reads one `sizeof(int)` message then writes one,
thread 1 writes one then reads one. -/
def workerEvents (td : ThreadData) (loops : Nat) : List PEv :=
  (List.range loops).flatMap fun _ =>
    if td.nr = 0 then
      [PEv.readMsg td.pipe_read intSize, PEv.writeMsg td.pipe_write intSize]
    else
      [PEv.writeMsg td.pipe_write intSize, PEv.readMsg td.pipe_read intSize]

/-- The fd wiring of `main` (lines 170-179), with `pipe_1` named 1 and
`pipe_2` named 2: thread 0 reads `pipe_1[0]` and writes `pipe_2[1]`. -/
def thread0 : ThreadData := ⟨0, 1, 2⟩

/-- Thread 1 writes `pipe_1[1]` and reads `pipe_2[0]` (lines 176-177). -/
def thread1 : ThreadData := ⟨1, 2, 1⟩

lemma workerEvents_succ (td : ThreadData) (l : Nat) :
    workerEvents td (l + 1) = workerEvents td l ++
      (if td.nr = 0 then
        [PEv.readMsg td.pipe_read intSize, PEv.writeMsg td.pipe_write intSize]
      else
        [PEv.writeMsg td.pipe_write intSize, PEv.readMsg td.pipe_read intSize]) := by
  simp only [workerEvents]
  rw [List.range_succ, List.flatMap_append]
  simp

/-- C8: in a pipe-latency run of `L` loops each worker performs exactly
`L` iterations of two pipe operations: worker 0 reads `L` `sizeof(int)`
messages from pipe 1 and writes `L` to pipe 2, worker 1 writes `L`
messages to pipe 1 and reads `L` from pipe 2, every event of each trace
being one of its two operations — so each pipe carries exactly `L`
messages in one direction, and both traces end after `2*L` events. -/
theorem pingpong_counts (L : Nat) :
    (workerEvents thread0 L).length = 2 * L ∧
    (workerEvents thread1 L).length = 2 * L ∧
    (workerEvents thread0 L).count (PEv.readMsg 1 intSize) = L ∧
    (workerEvents thread0 L).count (PEv.writeMsg 2 intSize) = L ∧
    (workerEvents thread1 L).count (PEv.writeMsg 1 intSize) = L ∧
    (workerEvents thread1 L).count (PEv.readMsg 2 intSize) = L ∧
    (∀ e ∈ workerEvents thread0 L,
      e = PEv.readMsg 1 intSize ∨ e = PEv.writeMsg 2 intSize) ∧
    (∀ e ∈ workerEvents thread1 L,
      e = PEv.writeMsg 1 intSize ∨ e = PEv.readMsg 2 intSize) := by
  induction L with
  | zero =>
    refine ⟨rfl, rfl, rfl, rfl, rfl, rfl, ?_, ?_⟩
    · intro e he; exact absurd he (by simp [workerEvents])
    · intro e he; exact absurd he (by simp [workerEvents])
  | succ l ih =>
    obtain ⟨i1, i2, i3, i4, i5, i6, i7, i8⟩ := ih
    rw [workerEvents_succ, workerEvents_succ]
    refine ⟨?_, ?_, ?_, ?_, ?_, ?_, ?_, ?_⟩
    · rw [List.length_append, i1]; simp [thread0]; ring
    · rw [List.length_append, i2]; simp [thread1]; ring
    · rw [List.count_append, i3]; simp [thread0, List.count_cons]
    · rw [List.count_append, i4]; simp [thread0, List.count_cons]
    · rw [List.count_append, i5]; simp [thread1, List.count_cons]
    · rw [List.count_append, i6]; simp [thread1, List.count_cons]
    · intro e he
      rcases List.mem_append.mp he with h | h
      · exact i7 e h
      · simp [thread0] at h
        rcases h with h | h
        · exact Or.inl (by rw [h])
        · exact Or.inr (by rw [h])
    · intro e he
      rcases List.mem_append.mp he with h | h
      · exact i8 e h
      · simp [thread1] at h
        rcases h with h | h
        · exact Or.inl (by rw [h])
        · exact Or.inr (by rw [h])

/-- Witness for C8 at `L = 2`: the counts, and the classification applied
to a concrete event of worker 0's trace. -/
theorem pingpong_counts_witness :
    (workerEvents thread0 2).length = 2 * 2 ∧
    (PEv.readMsg 1 intSize = PEv.readMsg 1 intSize ∨
      PEv.readMsg 1 intSize = PEv.writeMsg 2 intSize) :=
  ⟨(pingpong_counts 2).1,
    (pingpong_counts 2).2.2.2.2.2.2.1 (PEv.readMsg 1 intSize) (by decide)⟩

end PipeLatency

namespace Pipebench

/-- The read/write loop of pipebench's `main`: each iteration `fread`s
one chunk from stdin, adds the chunk's byte count `n` to `datalen`, and
`fwrite`s exactly those `n` bytes to stdout.  `chunks` is the list of
successive `fread` results until EOF (or SIGINT sets `done`); the
accumulators are `datalen` and the bytes written to stdout so far. -/
def copyLoop : List (List Nat) → Nat → List Nat → Nat × List Nat
  | [], datalen, out => (datalen, out)
  | c :: cs, datalen, out => copyLoop cs (datalen + c.length) (out ++ c)

lemma copyLoop_spec (chunks : List (List Nat)) (datalen : Nat) (out : List Nat) :
    copyLoop chunks datalen out =
      (datalen + chunks.flatten.length, out ++ chunks.flatten) := by
  induction chunks generalizing datalen out with
  | nil => simp [copyLoop]
  | cons c cs ih =>
    rw [copyLoop, ih]
    simp
    omega

/-- C7: pipebench writes every byte it reads from stdin to stdout, in
order, and the final `datalen` equals the total number of bytes read
over the whole run. -/
theorem pipebench_copies_everything (chunks : List (List Nat)) :
    (copyLoop chunks 0 []).2 = chunks.flatten ∧
    (copyLoop chunks 0 []).1 = chunks.flatten.length := by
  rw [copyLoop_spec]
  simp

end Pipebench

namespace HeapTest

/-- The kinds of calls the small tools' `main` functions perform.  The
kinds the specification sentence mentions are included (clock reads for
a timing loop, command-line flag parsing) so that their absence from a
trace is expressible. -/
inductive HEv where
  | getpidCall
  | printCall
  | sbrkCall (incr : Int)
  | mallocCall (n : Nat)
  | callocCall (n m : Nat)
  | reallocCall (n : Nat)
  | getcharCall
  | freeCall
  | clockRead
  | flagParse
  deriving DecidableEq, Repr

/-- heap-test's `main` (brk/heap-test.c lines 27-65) as its straight-line
call trace: print the pid, query `sbrk(0)`, `malloc(1024)`,
`calloc(4, 256)`, `realloc(..., 2048)`, query `sbrk(0)` again, print the
instructions, wait for ENTER with `getchar()`, free twice.  The function
is `int main(void)`: it never reads `argv`, calls no `getopt`, and calls
no clock function. -/
def heapTestEvents : List HEv :=
  [HEv.getpidCall, HEv.printCall,
   HEv.sbrkCall 0, HEv.printCall,
   HEv.mallocCall 1024, HEv.printCall,
   HEv.callocCall 4 256, HEv.printCall,
   HEv.reallocCall 2048, HEv.printCall,
   HEv.sbrkCall 0, HEv.printCall,
   HEv.printCall, HEv.printCall, HEv.printCall,
   HEv.getcharCall, HEv.freeCall, HEv.freeCall]

/-- Is the event a clock read (`clock_gettime`/`gettimeofday`), the
marker of a timing loop? -/
def isTimingEv : HEv → Bool
  | HEv.clockRead => true
  | _ => false

/-- Is the event command-line flag parsing (`getopt`/argv inspection)? -/
def isFlagEv : HEv → Bool
  | HEv.flagParse => true
  | _ => false

/-- C9 counterexample: heap-test neither parses command-line flags nor
reads any clock — its trace contains no flag-parsing event and no timing
event, refuting the claim that it parses command-line flags and wraps
its work in a timing loop. -/
theorem heap_test_not_flagged_timed :
    ¬ ((∃ e ∈ heapTestEvents, isFlagEv e = true) ∧
       (∃ e ∈ heapTestEvents, isTimingEv e = true)) := by
  decide

/-- C9 amended: heap-test consists of direct syscall/libc calls, but in
straight-line code: it performs allocator and `sbrk` calls, yet parses
no command-line flags and has no timing loop. -/
theorem heap_test_straightline :
    heapTestEvents.filter isTimingEv = [] ∧
    heapTestEvents.filter isFlagEv = [] ∧
    HEv.sbrkCall 0 ∈ heapTestEvents ∧
    HEv.mallocCall 1024 ∈ heapTestEvents ∧
    HEv.getpidCall ∈ heapTestEvents := by
  decide

end HeapTest

namespace Callbench

/-- `LONG_MAX` on a 64-bit target, the sentinel both minimum
accumulators start from (callbench.c lines 140, 144). -/
def longMax : Int := 2 ^ 63 - 1

/-- The C accumulation `if (elapsed_ns < best) best = elapsed_ns;`
(lines 158-160 and 165-167). -/
def bestUpdate (best x : Int) : Int := if x < best then x else best

/-- The inner loop of `run_bench_ns` (lines 146-161): fold the elapsed
nanoseconds of the `loops` timing windows of one round into `best_ns2`,
starting from `LONG_MAX`. -/
def innerBest (elapsed : Nat → Int) (loops : Nat) : Int :=
  ((List.range loops).map elapsed).foldl bestUpdate longMax

/-- `run_bench_ns` (lines 139-175): `elapsed r l` is the `elapsed_ns` of
round `r`, loop `l` (a C `long`).  Per round, `best_ns2 /= calls` with C
`long` division (truncation toward zero, `Int.tdiv`), and `best_ns1`
keeps the minimum across rounds, starting from `LONG_MAX`. -/
def run_bench_ns (elapsed : Nat → Nat → Int) (calls : Int) (loops rounds : Nat) : Int :=
  ((List.range rounds).map fun r => (innerBest (elapsed r) loops).tdiv calls).foldl
    bestUpdate longMax

/-- The minimum over all rounds and all loops of the elapsed
nanoseconds, with the same `LONG_MAX` sentinel. -/
def minAllElapsed (elapsed : Nat → Nat → Int) (loops rounds : Nat) : Int :=
  ((List.range rounds).flatMap fun r => (List.range loops).map (elapsed r)).foldl
    bestUpdate longMax

lemma bestUpdate_le_left (b x : Int) : bestUpdate b x ≤ b := by
  unfold bestUpdate
  split
  · omega
  · exact le_refl b

lemma bestUpdate_le_right (b x : Int) : bestUpdate b x ≤ x := by
  unfold bestUpdate
  split
  · exact le_refl x
  · omega

lemma foldl_bestUpdate_le_init (l : List Int) (init : Int) :
    l.foldl bestUpdate init ≤ init := by
  induction l generalizing init with
  | nil => exact le_refl init
  | cons x xs ih => exact le_trans (ih (bestUpdate init x)) (bestUpdate_le_left init x)

lemma foldl_bestUpdate_le_mem (l : List Int) (init : Int) (x : Int) (hx : x ∈ l) :
    l.foldl bestUpdate init ≤ x := by
  induction l generalizing init with
  | nil => cases hx
  | cons y ys ih =>
    rcases List.mem_cons.mp hx with h | h
    · subst h
      exact le_trans (foldl_bestUpdate_le_init ys (bestUpdate init x))
        (bestUpdate_le_right init x)
    · exact ih (bestUpdate init y) h

lemma foldl_bestUpdate_attained (l : List Int) (init : Int) :
    l.foldl bestUpdate init = init ∨ l.foldl bestUpdate init ∈ l := by
  induction l generalizing init with
  | nil => exact Or.inl rfl
  | cons y ys ih =>
    rcases ih (bestUpdate init y) with h | h
    · rw [List.foldl_cons, h]
      unfold bestUpdate
      split
      · exact Or.inr (List.mem_cons_self y ys)
      · exact Or.inl rfl
    · exact Or.inr (List.mem_cons_of_mem y h)

/-- The fold is the true minimum of a nonempty list whose members do not
exceed the sentinel: it is attained and it is a lower bound. -/
lemma foldl_bestUpdate_spec (l : List Int) (hne : l ≠ [])
    (hb : ∀ x ∈ l, x ≤ longMax) :
    l.foldl bestUpdate longMax ∈ l ∧ ∀ x ∈ l, l.foldl bestUpdate longMax ≤ x := by
  refine ⟨?_, fun x hx => foldl_bestUpdate_le_mem l longMax x hx⟩
  rcases foldl_bestUpdate_attained l longMax with h | h
  · obtain ⟨y, ys, rfl⟩ := List.exists_cons_of_ne_nil hne
    have h1 : (y :: ys).foldl bestUpdate longMax ≤ y :=
      foldl_bestUpdate_le_mem _ _ y (List.mem_cons_self y ys)
    have h2 : y ≤ longMax := hb y (List.mem_cons_self y ys)
    have : (y :: ys).foldl bestUpdate longMax = y := by omega
    rw [this]
    exact List.mem_cons_self y ys
  · exact h

/-- C `long` division (truncation toward zero) is monotone in the
numerator for a positive divisor. -/
lemma tdiv_le_tdiv_of_le {a b : Int} (c : Int) (hc : 0 < c) (h : a ≤ b) :
    a.tdiv c ≤ b.tdiv c := by
  rcases le_or_lt 0 a with ha | ha
  · rw [Int.tdiv_eq_ediv ha hc.le, Int.tdiv_eq_ediv (le_trans ha h) hc.le]
    exact Int.ediv_le_ediv hc h
  · rcases le_or_lt 0 b with hb | hb
    · have h1 : a.tdiv c = -((-a).tdiv c) := by
        rw [Int.neg_tdiv]
        omega
      have h2 : 0 ≤ (-a).tdiv c := Int.tdiv_nonneg (by omega) hc.le
      have h3 : 0 ≤ b.tdiv c := Int.tdiv_nonneg hb hc.le
      omega
    · have h1 : a.tdiv c = -((-a).tdiv c) := by rw [Int.neg_tdiv]; omega
      have h2 : b.tdiv c = -((-b).tdiv c) := by rw [Int.neg_tdiv]; omega
      have h4 : (-b).tdiv c ≤ (-a).tdiv c := by
        rw [Int.tdiv_eq_ediv (by omega) hc.le, Int.tdiv_eq_ediv (by omega) hc.le]
        exact Int.ediv_le_ediv hc (by omega)
      omega

lemma tdiv_le_longMax {x : Int} (c : Int) (hc : 0 < c) (hx : x ≤ longMax) :
    x.tdiv c ≤ longMax := by
  have h1 : x.tdiv c ≤ longMax.tdiv c := tdiv_le_tdiv_of_le c hc hx
  have h2 : longMax.tdiv c ≤ longMax := by
    rw [Int.tdiv_eq_ediv (by unfold longMax; omega) hc.le]
    exact Int.ediv_le_self c (by unfold longMax; omega)
  omega

/-- C10: for `calls > 0`, `loops ≥ 1`, `rounds ≥ 1` and every elapsed
value a C `long` (at most `LONG_MAX`), `run_bench_ns` returns the
minimum over all rounds and all loops of the elapsed nanoseconds of one
inner timing window, integer-divided (truncating, as C long division)
by `calls`: the per-round division by the common `calls` commutes with
taking the minimum across rounds.  The minimum is genuine: it is
attained at some round and loop and bounds every elapsed value. -/
theorem run_bench_ns_min (elapsed : Nat → Nat → Int) (calls : Int)
    (loops rounds : Nat) (hc : 0 < calls) (hl : 1 ≤ loops) (hr : 1 ≤ rounds)
    (hbound : ∀ r l, r < rounds → l < loops → elapsed r l ≤ longMax) :
    run_bench_ns elapsed calls loops rounds =
      (minAllElapsed elapsed loops rounds).tdiv calls ∧
    (∃ r0 l0, r0 < rounds ∧ l0 < loops ∧
      minAllElapsed elapsed loops rounds = elapsed r0 l0) ∧
    (∀ r l, r < rounds → l < loops →
      minAllElapsed elapsed loops rounds ≤ elapsed r l) := by
  set A : List Int :=
    (List.range rounds).flatMap fun r => (List.range loops).map (elapsed r) with hA
  have hmemA : ∀ x, x ∈ A ↔ ∃ r l, r < rounds ∧ l < loops ∧ x = elapsed r l := by
    intro x
    rw [hA]
    constructor
    · intro hx
      obtain ⟨r, hr', hx2⟩ := List.mem_flatMap.mp hx
      obtain ⟨l, hl', hx3⟩ := List.mem_map.mp hx2
      exact ⟨r, l, List.mem_range.mp hr', List.mem_range.mp hl', hx3.symm⟩
    · rintro ⟨r, l, hr', hl', rfl⟩
      exact List.mem_flatMap.mpr ⟨r, List.mem_range.mpr hr',
        List.mem_map.mpr ⟨l, List.mem_range.mpr hl', rfl⟩⟩
  have hAne : A ≠ [] := by
    have : elapsed 0 0 ∈ A := (hmemA _).mpr ⟨0, 0, hr, hl, rfl⟩
    exact List.ne_nil_of_mem this
  have hAb : ∀ x ∈ A, x ≤ longMax := by
    intro x hx
    obtain ⟨r, l, hr', hl', rfl⟩ := (hmemA x).mp hx
    exact hbound r l hr' hl'
  have hspecA := foldl_bestUpdate_spec A hAne hAb
  have hminA : minAllElapsed elapsed loops rounds = A.foldl bestUpdate longMax := rfl
  have hinner : ∀ r, r < rounds →
      (∃ l0, l0 < loops ∧ innerBest (elapsed r) loops = elapsed r l0) ∧
      (∀ l, l < loops → innerBest (elapsed r) loops ≤ elapsed r l) := by
    intro r hr'
    have hne : (List.range loops).map (elapsed r) ≠ [] := by
      have : elapsed r 0 ∈ (List.range loops).map (elapsed r) :=
        List.mem_map.mpr ⟨0, List.mem_range.mpr hl, rfl⟩
      exact List.ne_nil_of_mem this
    have hb : ∀ x ∈ (List.range loops).map (elapsed r), x ≤ longMax := by
      intro x hx
      obtain ⟨l, hl', rfl⟩ := List.mem_map.mp hx
      exact hbound r l hr' (List.mem_range.mp hl')
    have hs := foldl_bestUpdate_spec _ hne hb
    constructor
    · obtain ⟨l0, hl0, heq⟩ := List.mem_map.mp hs.1
      exact ⟨l0, List.mem_range.mp hl0, heq.symm⟩
    · intro l hl'
      exact hs.2 _ (List.mem_map.mpr ⟨l, List.mem_range.mpr hl', rfl⟩)
  have hinnerBound : ∀ r, r < rounds → innerBest (elapsed r) loops ≤ longMax := by
    intro r hr'
    obtain ⟨⟨l0, hl0, heq⟩, _⟩ := hinner r hr'
    rw [heq]
    exact hbound r l0 hr' hl0
  set Q : List Int :=
    (List.range rounds).map fun r => (innerBest (elapsed r) loops).tdiv calls with hQ
  have hQne : Q ≠ [] := by
    have : (innerBest (elapsed 0) loops).tdiv calls ∈ Q := by
      rw [hQ]
      exact List.mem_map.mpr ⟨0, List.mem_range.mpr hr, rfl⟩
    exact List.ne_nil_of_mem this
  have hQb : ∀ x ∈ Q, x ≤ longMax := by
    intro x hx
    rw [hQ] at hx
    obtain ⟨r, hr', rfl⟩ := List.mem_map.mp hx
    exact tdiv_le_longMax calls hc (hinnerBound r (List.mem_range.mp hr'))
  have hspecQ := foldl_bestUpdate_spec Q hQne hQb
  have hrun : run_bench_ns elapsed calls loops rounds = Q.foldl bestUpdate longMax := rfl
  have hlbA : ∀ r l, r < rounds → l < loops →
      A.foldl bestUpdate longMax ≤ elapsed r l := by
    intro r l hr' hl'
    exact hspecA.2 _ ((hmemA _).mpr ⟨r, l, hr', hl', rfl⟩)
  obtain ⟨ra, la, hra, hla, hminEq⟩ := (hmemA _).mp hspecA.1
  refine ⟨?_, ⟨ra, la, hra, hla, by rw [hminA, hminEq]⟩, ?_⟩
  · -- the returned value equals the global minimum divided by calls
    rw [hrun, hminA]
    apply le_antisymm
    · -- run ≤ (min A).tdiv calls, via the round ra attaining the minimum
      have hMra : innerBest (elapsed ra) loops = A.foldl bestUpdate longMax := by
        obtain ⟨⟨l1, hl1, heq1⟩, hlb1⟩ := hinner ra hra
        have h1 : A.foldl bestUpdate longMax ≤ innerBest (elapsed ra) loops := by
          rw [heq1]
          exact hlbA ra l1 hra hl1
        have h2 : innerBest (elapsed ra) loops ≤ A.foldl bestUpdate longMax := by
          rw [hminEq]
          exact hlb1 la hla
        omega
      have : (innerBest (elapsed ra) loops).tdiv calls ∈ Q := by
        rw [hQ]
        exact List.mem_map.mpr ⟨ra, List.mem_range.mpr hra, rfl⟩
      have h3 := hspecQ.2 _ this
      rw [hMra] at h3
      exact h3
    · -- (min A).tdiv calls ≤ run, because run is some round's quotient
      have hrunQ := hspecQ.1
      rw [hQ] at hrunQ
      obtain ⟨r1, hr1, heq1⟩ := List.mem_map.mp hrunQ
      have hr1' := List.mem_range.mp hr1
      have hle : A.foldl bestUpdate longMax ≤ innerBest (elapsed r1) loops := by
        obtain ⟨⟨l1, hl1, heq2⟩, _⟩ := hinner r1 hr1'
        rw [heq2]
        exact hlbA r1 l1 hr1' hl1
      have := tdiv_le_tdiv_of_le calls hc hle
      rw [heq1] at this
      exact this
  · intro r l hr' hl'
    rw [hminA]
    exact hlbA r l hr' hl'

/-- Witness for C10 at a constant elapsed function, `calls = 2`,
`loops = 1`, `rounds = 1`. -/
theorem run_bench_ns_min_witness :
    run_bench_ns (fun _ _ => (7 : Int)) 2 1 1 =
      (minAllElapsed (fun _ _ => (7 : Int)) 1 1).tdiv 2 ∧
    (∃ r0 l0, r0 < 1 ∧ l0 < 1 ∧
      minAllElapsed (fun _ _ => (7 : Int)) 1 1 = (7 : Int)) ∧
    (∀ r l, r < 1 → l < 1 →
      minAllElapsed (fun _ _ => (7 : Int)) 1 1 ≤ (7 : Int)) :=
  run_bench_ns_min (fun _ _ => (7 : Int)) 2 1 1 (by decide) (by decide) (by decide)
    (fun _ _ _ _ => by show (7 : Int) ≤ longMax; unfold longMax; omega)

end Callbench
